import Mathlib

/-!  # Verification of the solar-cell experiment core

Shallow embedding of the measurement-orchestration code of
`pythondaq` (`models/solar_cell_experiment.py` and
`views/solar_cell_gui.py`).  Floating-point numbers are idealised as
real numbers, extended with the IEEE special values (`±inf`, `nan`)
where the code can produce and test them.  Instrument interaction is
modelled by a pair of read streams together with an explicit trace of
device operations.
-/

namespace SolarCell

noncomputable section

/-- A floating-point value: a finite real, a signed infinity, or NaN. -/
inductive F where
  | fin : ℝ → F
  | pinf : F
  | ninf : F
  | nan : F

/-- `np.isinf`. -/
def F.isInf : F → Bool
  | .pinf => true
  | .ninf => true
  | _ => false

/-- `np.isnan`. -/
def F.isNaN : F → Bool
  | .nan => true
  | _ => false

/-- The real carried by a finite value (0 on the special values). -/
def F.toReal : F → ℝ
  | .fin x => x
  | _ => 0

/-- IEEE addition on embedded floats (as used by `np.mean`'s sum). -/
def Fadd : F → F → F
  | .nan, _ => .nan
  | .fin a, .fin b => .fin (a + b)
  | .fin _, .pinf => .pinf
  | .fin _, .ninf => .ninf
  | .fin _, .nan => .nan
  | .pinf, .fin _ => .pinf
  | .pinf, .pinf => .pinf
  | .pinf, .ninf => .nan
  | .pinf, .nan => .nan
  | .ninf, .fin _ => .ninf
  | .ninf, .pinf => .nan
  | .ninf, .ninf => .ninf
  | .ninf, .nan => .nan

/-- Sum of a list of floats. -/
def Fsum (l : List F) : F := l.foldr Fadd (.fin 0)

/-- Division of a float by a (positive) integer count. -/
def FdivNat (a : F) (n : ℕ) : F :=
  match a with
  | .fin x => .fin (x / n)
  | .pinf => .pinf
  | .ninf => .ninf
  | .nan => .nan

/-- `np.mean` on a list of floats (`nan` on an empty list). -/
def Fmean (l : List F) : F :=
  if l.isEmpty then .nan else FdivNat (Fsum l) l.length

/-- Arithmetic mean of a list of reals. -/
def listMean (l : List ℝ) : ℝ := l.sum / l.length

/-- `np.std`: population standard deviation of a list of reals. -/
def popStd (l : List ℝ) : ℝ :=
  Real.sqrt ((l.map (fun x => (x - listMean l) ^ 2)).sum / l.length)

/-- Python `round` on a real value: nearest integer, ties to even. -/
def pyRound (x : ℝ) : ℤ :=
  if Int.fract x = 1 / 2 then (if Even ⌊x⌋ then ⌊x⌋ else ⌊x⌋ + 1) else round x

/-- Python `range(start, stop, step)` for a non-negative step
(`range` raises `ValueError` on step 0; that case is kept empty here
and guarded explicitly at the call site). -/
def pyRange (start stop step : ℕ) : List ℕ :=
  if step = 0 then [] else List.range' start ((stop - start + step - 1) / step) step

/-! ## The instrument model -/

def CH_VOUT : ℕ := 0
def CH_U1 : ℕ := 1
def CH_U2 : ℕ := 2

/-- The instrument: the value returned by the `k`-th read of each input
channel.  Raw readings are finite floats, idealised as reals. -/
structure Device where
  u1 : ℕ → ℝ
  u2 : ℕ → ℝ

/-- One interaction with the instrument. -/
inductive DevOp where
  | setOutput : ℕ → ℝ → DevOp
  | getInput : ℕ → DevOp

/-- One raw sample `(Upv, Ipv, resistance)` of
`__recursive_u_i_r_measurement`, taken at read index `k`:
`Upv = get_input_voltage(CH_U1) * 3.0`, `U2 = get_input_voltage(CH_U2)`,
`Ipv = U2 / 4.7`, and `resistance = abs((Upv - U2) / Ipv) + 4.7` when
`Ipv` is nonzero, `inf` otherwise. -/
def sample (d : Device) (k : ℕ) : F × F × F :=
  let Upv := d.u1 k * 3
  let U2 := d.u2 k
  let Ipv := U2 / 4.7
  (F.fin Upv, F.fin Ipv,
    if Ipv ≠ 0 then F.fin (|(Upv - U2) / Ipv| + 4.7) else F.pinf)

/-- `__recursive_u_i_r_measurement(repeat)`: yields one sample and
recurses with `repeat - 1`, stopping at `repeat ≤ 0`; successive
samples consume successive read indices starting at `k0`. -/
def recMeas (d : Device) (k0 : ℕ) : ℕ → List (F × F × F)
  | 0 => []
  | n + 1 => sample d k0 :: recMeas d (k0 + 1) n

/-- `value_with_uncertainty` (local function of `measure_u_i_r`): if any
value is infinite or NaN the uncertainty is `inf`, otherwise it is
`np.std(values) / np.sqrt(len(values))`. -/
def value_with_uncertainty (values : List F) : F × F :=
  if values.any (fun v => v.isInf || v.isNaN) then (Fmean values, F.pinf)
  else (Fmean values, F.fin (popStd (values.map F.toReal) / Real.sqrt values.length))

/-- An aggregated measurement `((u, u_err), (i, i_err), (r, r_err), v_out)`. -/
structure Agg where
  u : F × F
  i : F × F
  r : F × F
  vout : ℝ

/-- `measure_u_i_r(output_voltage, repeat)`, with `k0` the read index of
the first raw sample. -/
def measure_u_i_r (d : Device) (k0 : ℕ) (output_voltage : ℝ) (rep : ℕ) : Agg :=
  let pairs := recMeas d k0 rep
  { u := value_with_uncertainty (pairs.map (fun s => s.1)),
    i := value_with_uncertainty (pairs.map (fun s => s.2.1)),
    r := value_with_uncertainty (pairs.map (fun s => s.2.2)),
    vout := output_voltage }

/-- The channel reads performed by `repeat` raw samples. -/
def measureReads : ℕ → List DevOp
  | 0 => []
  | n + 1 => DevOp.getInput CH_U1 :: DevOp.getInput CH_U2 :: measureReads n

/-- The instrument operations of one `measure_u_i_r(output_voltage, repeat)`
call: a `set_output_voltage` only when `output_voltage > 0.0`, then the reads. -/
def measureOps (output_voltage : ℝ) (rep : ℕ) : List DevOp :=
  (if 0 < output_voltage then [DevOp.setOutput CH_VOUT output_voltage] else []) ++
    measureReads rep

/-- Length of `np.arange(start, stop, step)` (exact-arithmetic
idealisation: `max 0 ⌈(stop - start) / step⌉`). -/
def arangeLen (start stop step : ℝ) : ℕ := ⌈(stop - start) / step⌉.toNat

/-- `np.arange(start, stop, step)`. -/
def np_arange (start stop step : ℝ) : List ℝ :=
  (List.range (arangeLen start stop step)).map (fun k => start + k * step)

inductive ScanError where
  | configError : ScanError

/-- `scan_u_i_r(start_voltage, end_voltage, step_size, repeat)`: raises
unless `end_voltage ≥ start_voltage`, then measures at every point of
`np.arange(start_voltage, end_voltage + step_size, step_size)` and
finally sets the output voltage to 0.  The result carries the yielded
measurements and the trace of instrument operations. -/
def scan_u_i_r (d : Device) (start_voltage end_voltage step_size : ℝ) (rep : ℕ) :
    Except ScanError (List Agg × List DevOp) :=
  if end_voltage < start_voltage then .error .configError
  else
    .ok (((List.range (arangeLen start_voltage (end_voltage + step_size) step_size)).map
            (fun k => measure_u_i_r d (k * rep) (start_voltage + k * step_size) rep)),
         ((List.range (arangeLen start_voltage (end_voltage + step_size) step_size)).map
            (fun k => measureOps (start_voltage + k * step_size) rep)).flatten ++
           [DevOp.setOutput CH_VOUT 0])

/-! ## Power and error propagation -/

/-- `p_for_u_i(u, u_err, i, i_err)` on scalars:
`p = u * i`, `p_err = p * np.sqrt(u_err ** 2 + i_err ** 2)`. -/
def p_for_u_i (u u_err i i_err : ℝ) : ℝ × ℝ :=
  let p := u * i
  (p, p * Real.sqrt (u_err ^ 2 + i_err ^ 2))

/-- `p_for_u_i` applied element-wise to arrays (numpy broadcasting). -/
def p_for_u_i_arr (u u_err i i_err : List ℝ) : List ℝ × List ℝ :=
  let p := List.zipWith (fun a b => a * b) u i
  (p, List.zipWith (fun x y => x * Real.sqrt y) p
        (List.zipWith (fun a b => a ^ 2 + b ^ 2) u_err i_err))

/-! ## The fitting pipeline -/

/-- The non-NaN non-inf test used by `fit_u_i`'s cleaning loop. -/
def isFiniteF (x : F) : Bool := !(x.isNaN || x.isInf)

/-- `1 / x` on a float (IEEE: `1 / 0 = inf`, `1 / ±inf = 0`). -/
def Finv (x : F) : F :=
  match x with
  | .fin a => if a = 0 then .pinf else .fin (1 / a)
  | .pinf => .fin 0
  | .ninf => .fin 0
  | .nan => .nan

/-- The arguments `fit_u_i` hands to `lmfit`'s `m.fit`: the cleaned data
`_i`, the cleaned independent variable `_u`, and the weights. -/
structure FitCall where
  data : List F
  xs : List F
  weights : List F

/-- `fit_u_i(u, i, i_err, I_l_init)` up to the external optimiser: drops
every index at which `i` or `i_err` is NaN or infinite, then calls
`m.fit(_i, U=_u, ..., weights=1 / i_err)` — note the weights are taken
from the *original* `i_err`, not the cleaned `_i_err`. -/
def fit_u_i (u i i_err : List F) : FitCall :=
  let triples := u.zip (i.zip i_err)
  let kept := triples.filter (fun s => isFiniteF s.2.1 && isFiniteF s.2.2)
  { data := kept.map (fun s => s.2.1),
    xs := kept.map (fun s => s.1),
    weights := i_err.map Finv }

/-- Python `max(a, b)` with a finite second argument (`b if b > a else a`). -/
def pyMaxFloor (a : F) (b : ℝ) : F :=
  match a with
  | .fin x => .fin (max x b)
  | .pinf => .pinf
  | .ninf => .fin b
  | .nan => .nan

/-- The data preparation of `UserInterface.plot` (solar_cell_gui.py,
lines 328-340, sweet-spot trimming disabled): skip indices where `u`,
`i` or `i_err` is NaN, and floor the kept uncertainties at `1e-12`. -/
def gui_clean (u i i_err : List F) : List F × List F × List F :=
  let triples := u.zip (i.zip i_err)
  let kept := triples.filter
    (fun s => !(s.1.isNaN || s.2.1.isNaN || s.2.2.isNaN))
  (kept.map (fun s => s.1), kept.map (fun s => s.2.1),
    kept.map (fun s => pyMaxFloor s.2.2 1e-12))

/-- The GUI fitting pipeline: `UserInterface.plot`'s preparation
followed by `fit_u_i`. -/
def gui_then_fit (u i i_err : List F) : FitCall :=
  let c := gui_clean u i i_err
  fit_u_i c.1 c.2.1 c.2.2

/-! ## The sweet-spot detector -/

inductive SweetErr where
  | rangeStepZero : SweetErr
  | noSweetSpot : SweetErr

/-- `np.sqrt(np.mean(u ** 2))`. -/
def u_rms (u : List ℝ) : ℝ :=
  Real.sqrt ((u.map (fun x => x ^ 2)).sum / u.length)

/-- `int(round(len(u) * 0.1))`, the block width of the detector. -/
def window_len (n : ℕ) : ℕ := (pyRound ((n : ℝ) * 0.1)).toNat

/-- `v_out_of_mosfet_sweetspot(v_out, u)`: walks the boundary indices
`range(window_len, len(v_out), window_len)` and returns
`(v_out[i] - 0.5, v_out[i])` at the first `i` with
`abs(u[0] - u[i]) > u_rms` (`last_u` is never reassigned in the source,
so it stays `u[0]`).  With `window_len = 0` the `range` call itself
raises (`rangeStepZero`); if the loop finishes, `noSweetSpot` is raised. -/
def v_out_of_mosfet_sweetspot (v_out u : List ℝ) : Except SweetErr (ℝ × ℝ) :=
  let rms := u_rms u
  let last_u := u.getD 0 0
  let w := window_len u.length
  if w = 0 then .error .rangeStepZero
  else
    match (pyRange w v_out.length w).find?
        (fun i => decide (|last_u - u.getD i 0| > rms)) with
    | some i => .ok (v_out.getD i 0 - 0.5, v_out.getD i 0)
    | none => .error .noSweetSpot

/-! ## The tracker window and the active-tracking trigger -/

/-- One row of `Experiment.p_r_t_rows`: `(p, p_err, r, r_err, timestamp)`.
Numeric fields are idealised as (finite) reals; only `p` and `ts` are
inspected by the window logic. -/
structure PRT where
  p : ℝ
  pErr : ℝ
  r : ℝ
  rErr : ℝ
  ts : ℝ

/-- The `while` loop of `pop_old_p_r_t_measurements`: pop the head while
its age exceeds 8 s.  Re-evaluating the condition on an emptied list
indexes `rows[0]` out of range, which raises (`none`). -/
def popLoop (t : ℝ) : List PRT → Option (List PRT)
  | [] => none
  | e :: rest => if t - e.ts > 8 then popLoop t rest else some (e :: rest)

/-- `Experiment.pop_old_p_r_t_measurements`, pruning at wall-clock time
`t`: windows of at most one entry are returned untouched. -/
def pop_old_p_r_t_measurements (t : ℝ) (rows : List PRT) : Option (List PRT) :=
  if rows.length ≤ 1 then some rows else popLoop t rows

/-- `Experiment.mean_power_in_time_range(t_start, t_end)`: the mean of
`p` over entries with `t_start < t < t_end`, or `0.0` if none. -/
def mean_power_in_time_range (rows : List PRT) (t_start t_end : ℝ) : ℝ :=
  let p_in_range :=
    (rows.filter (fun e => decide (t_start < e.ts) && decide (e.ts < t_end))).map
      (fun e => e.p)
  if p_in_range.isEmpty then 0 else listMean p_in_range

/-- The condition under which one iteration of `track_max_power_point`
performs an active-tracking rescan (solar_cell_gui.py lines 598-609):
`t = round(time() * 10) * 100` must satisfy the truthiness test
`t % 200`, more than 2 s must have passed since the last full scan, and
the 1-second mean powers must differ by more than 10 % of the older one. -/
def signals_rescan (active : Bool) (now last_scan : ℝ) (rows : List PRT) : Prop :=
  active = true ∧ pyRound (now * 10) * 100 % 200 ≠ 0 ∧ now - last_scan > 2 ∧
    |mean_power_in_time_range rows (now - 1) now -
        mean_power_in_time_range rows (now - 2) (now - 1)| >
      0.1 * mean_power_in_time_range rows (now - 2) (now - 1)

/-! ## Concrete instruments used by the witnesses -/

/-- An instrument whose two channels always read 1 V. -/
def devOnes : Device := ⟨fun _ => 1, fun _ => 1⟩

/-- An instrument whose current channel always reads 0 V. -/
def devZeroCurrent : Device := ⟨fun _ => 1, fun _ => 0⟩

/-- An instrument whose shunt voltage exceeds the (scaled) cell voltage. -/
def devSkew : Device := ⟨fun _ => 1 / 10, fun _ => 3 / 5⟩

/-! ## Basic lemmas about the embedding -/

theorem pyRound_intCast (n : ℤ) : pyRound ((n : ℝ)) = n := by
  rw [pyRound, Int.fract_intCast, if_neg (by norm_num), round_intCast]

theorem recMeas_eq_map (d : Device) (k0 n : ℕ) :
    recMeas d k0 n = (List.range n).map (fun j => sample d (k0 + j)) := by
  induction n generalizing k0 with
  | zero => rfl
  | succ n ih =>
    rw [recMeas, ih (k0 + 1), List.range_succ_eq_map, List.map_cons, List.map_map]
    refine congrArg₂ _ (by rw [Nat.add_zero]) (List.map_congr_left fun j _ => ?_)
    show sample d (k0 + 1 + j) = sample d (k0 + Nat.succ j)
    exact congrArg (sample d) (by omega)

theorem recMeas_length (d : Device) (k0 n : ℕ) : (recMeas d k0 n).length = n := by
  rw [recMeas_eq_map]; simp

theorem value_with_uncertainty_fst (values : List F) :
    (value_with_uncertainty values).1 = Fmean values := by
  unfold value_with_uncertainty
  split <;> rfl

theorem value_with_uncertainty_of_finite (values : List F)
    (h : ∀ v ∈ values, (v.isInf || v.isNaN) = false) :
    value_with_uncertainty values =
      (Fmean values, F.fin (popStd (values.map F.toReal) / Real.sqrt values.length)) := by
  have hany : values.any (fun v => v.isInf || v.isNaN) = false := by
    rw [List.any_eq_false]
    intro v hv
    simp [h v hv]
  simp [value_with_uncertainty, hany]

theorem Fsum_map_fin (l : List ℝ) : Fsum (l.map F.fin) = F.fin l.sum := by
  induction l with
  | nil => rfl
  | cons a l ih =>
    rw [List.map_cons, Fsum, List.foldr_cons]
    show Fadd (F.fin a) (Fsum (l.map F.fin)) = _
    rw [ih, List.sum_cons]
    rfl

theorem Fmean_map_fin (l : List ℝ) (h : l ≠ []) :
    Fmean (l.map F.fin) = F.fin (listMean l) := by
  rw [Fmean, if_neg (by simp [h]), Fsum_map_fin]
  simp [FdivNat, listMean]

theorem Fsum_pinf (l : List F) (h0 : l ≠ []) (h : ∀ v ∈ l, v = F.pinf) :
    Fsum l = F.pinf := by
  induction l with
  | nil => exact absurd rfl h0
  | cons a l ih =>
    have ha : a = F.pinf := h a (.head _)
    subst ha
    rcases eq_or_ne l [] with rfl | hl
    · rfl
    · rw [Fsum, List.foldr_cons]
      show Fadd F.pinf (Fsum l) = F.pinf
      rw [ih hl fun v hv => h v (.tail _ hv)]
      rfl

theorem Fmean_pinf (l : List F) (h0 : l ≠ []) (h : ∀ v ∈ l, v = F.pinf) :
    Fmean l = F.pinf := by
  rw [Fmean, if_neg (by simp [h0]), Fsum_pinf l h0 h]
  rfl

theorem popStd_singleton (x : ℝ) : popStd [x] = 0 := by
  simp [popStd, listMean]

theorem sum_eq_zero_all_zero (l : List ℝ) (hnn : ∀ x ∈ l, 0 ≤ x) (hs : l.sum = 0) :
    ∀ x ∈ l, x = 0 := by
  induction l with
  | nil => simp
  | cons a l ih =>
    have hla : 0 ≤ a := hnn a (.head _)
    have hlr : ∀ x ∈ l, 0 ≤ x := fun x hx => hnn x (.tail _ hx)
    have hsl : 0 ≤ l.sum := List.sum_nonneg hlr
    rw [List.sum_cons] at hs
    have ha : a = 0 := le_antisymm (by linarith) hla
    intro x hx
    rcases List.mem_cons.mp hx with rfl | hx
    · exact ha
    · exact ih hlr (by linarith) x hx

/-! ## C9: sweep-bound validation -/

/-- **C4 (amended).** `p_for_u_i` returns `p = u·i` with uncertainty
`p_err = p·sqrt(u_err² + i_err²)` (the *absolute*, not relative,
uncertainties are combined), both on scalars and element-wise on
equal-length arrays. -/
theorem p_for_u_i_correct :
    (∀ u u_err i i_err : ℝ,
      p_for_u_i u u_err i i_err = (u * i, u * i * Real.sqrt (u_err ^ 2 + i_err ^ 2))) ∧
    (∀ u u_err i i_err : List ℝ,
      u_err.length = u.length → i.length = u.length → i_err.length = u.length →
      (p_for_u_i_arr u u_err i i_err).1 =
          (List.range u.length).map
            (fun k => (p_for_u_i (u.getD k 0) (u_err.getD k 0) (i.getD k 0) (i_err.getD k 0)).1) ∧
      (p_for_u_i_arr u u_err i i_err).2 =
          (List.range u.length).map
            (fun k => (p_for_u_i (u.getD k 0) (u_err.getD k 0) (i.getD k 0) (i_err.getD k 0)).2)) := by
  constructor
  · intro u u_err i i_err
    rfl
  · intro u u_err i i_err hue hi hie
    constructor
    · apply List.ext_getElem
      · simp [p_for_u_i_arr, hi]
      · intro k hk1 hk2
        have hku : k < u.length := by simpa [p_for_u_i_arr, hi] using hk1
        simp only [p_for_u_i_arr, List.getElem_zipWith, List.getElem_map, List.getElem_range,
          p_for_u_i]
        rw [List.getD_eq_getElem u 0 hku, List.getD_eq_getElem i 0 (by omega)]
    · apply List.ext_getElem
      · simp [p_for_u_i_arr, hi, hue, hie]
      · intro k hk1 hk2
        have hku : k < u.length := by
          simpa [p_for_u_i_arr, hi, hue, hie] using hk1
        simp only [p_for_u_i_arr, List.getElem_zipWith, List.getElem_map, List.getElem_range,
          p_for_u_i]
        rw [List.getD_eq_getElem u 0 hku, List.getD_eq_getElem i 0 (by omega),
          List.getD_eq_getElem u_err 0 (by omega), List.getD_eq_getElem i_err 0 (by omega)]

theorem p_for_u_i_correct_witness :
    p_for_u_i 2 1 1 0 = (2 * 1, 2 * 1 * Real.sqrt (1 ^ 2 + 0 ^ 2)) ∧
      ([(2 : ℝ)].length = [(2 : ℝ)].length ∧ [(1 : ℝ)].length = [(2 : ℝ)].length) ∧
      (p_for_u_i_arr [2] [1] [1] [0]).1 =
        (List.range [(2 : ℝ)].length).map
          (fun k => (p_for_u_i ([(2 : ℝ)].getD k 0) ([(1 : ℝ)].getD k 0)
            ([(1 : ℝ)].getD k 0) ([(0 : ℝ)].getD k 0)).1) :=
  ⟨p_for_u_i_correct.1 2 1 1 0, ⟨rfl, rfl⟩,
    (p_for_u_i_correct.2 [2] [1] [1] [0] rfl rfl rfl).1⟩

/-- **C4 (counterexample).** At `u = 2, u_err = 1, i = 1, i_err = 0` the
code returns `p_err = 2`, while the claimed relative-error formula
`p·sqrt((u_err/u)² + (i_err/i)²)` gives `1`. -/
theorem p_for_u_i_relative_formula_refuted :
    p_for_u_i 2 1 1 0 = (2, 2) ∧
      2 * Real.sqrt ((1 / 2) ^ 2 + (0 / 1) ^ 2) = 1 ∧ (2 : ℝ) ≠ 1 := by
  refine ⟨?_, ?_, by norm_num⟩
  · rw [p_for_u_i]
    norm_num
  · rw [show ((1 / 2 : ℝ)) ^ 2 + (0 / 1) ^ 2 = (1 / 2) ^ 2 by norm_num,
      Real.sqrt_sq (by norm_num)]
    norm_num

/-! ## C3: the fitting pipeline's weights -/

/-- **C3 (code bug).** On `u = [0, 1, 2]`, `i = [1, inf, 2]`,
`i_err = [1, 1, 1]` the GUI pipeline keeps all three points (it only
filters NaN), `fit_u_i` then drops index 1 (infinite current) keeping 2
cleaned points — but the weights passed to the optimiser are
`1 / i_err` over the *unfiltered* 3-entry array: the cleaned `_i_err`
is computed and never used, so the weights do not correspond to the
retained points. -/
theorem fit_pipeline_weights_mismatch :
    (gui_then_fit [F.fin 0, F.fin 1, F.fin 2] [F.fin 1, F.pinf, F.fin 2]
        [F.fin 1, F.fin 1, F.fin 1]).data.length = 2 ∧
    (gui_then_fit [F.fin 0, F.fin 1, F.fin 2] [F.fin 1, F.pinf, F.fin 2]
        [F.fin 1, F.fin 1, F.fin 1]).weights.length = 3 := by
  constructor <;> rfl

theorem sample_fst (d : Device) (k : ℕ) : (sample d k).1 = F.fin (d.u1 k * 3) := rfl

theorem sample_snd_fst (d : Device) (k : ℕ) :
    (sample d k).2.1 = F.fin (d.u2 k / 4.7) := rfl

theorem sample_snd_snd (d : Device) (k : ℕ) :
    (sample d k).2.2 =
      if d.u2 k / 4.7 ≠ 0 then
        F.fin (|(d.u1 k * 3 - d.u2 k) / (d.u2 k / 4.7)| + 4.7)
      else F.pinf := rfl

theorem measure_component_unc_of_fin (vals : List F)
    (h : ∀ x ∈ vals, ∃ y, x = F.fin y) :
    (value_with_uncertainty vals).2 =
      F.fin (popStd (vals.map F.toReal) / Real.sqrt vals.length) := by
  have hfin : ∀ x ∈ vals, (x.isInf || x.isNaN) = false := by
    intro x hx
    obtain ⟨y, rfl⟩ := h x hx
    rfl
  rw [value_with_uncertainty_of_finite vals hfin]

/-! ## C7: per-sample resistance -/

/-- **C7 (amended).** Each raw sample's resistance is
`|u − 4.7·i| / |i| + 4.7` when the current `i` is nonzero (`u` the
scaled cell voltage, `4.7·i` the shunt voltage); in particular it
equals `u / i` whenever `0 < 4.7·i ≤ u`, i.e. on every reading whose
shunt voltage is positive and does not exceed the scaled cell voltage.
When `i = 0` the resistance is `inf`.
If every raw current is nonnegative and the aggregated current is
exactly 0, every raw current is 0 and the aggregated resistance is
`inf`. -/
theorem sample_resistance_correct (d : Device) (k k0 : ℕ) (v : ℝ) (n : ℕ) :
    (d.u2 k / 4.7 ≠ 0 →
      (sample d k).2.2 =
        F.fin (|d.u1 k * 3 - 4.7 * (d.u2 k / 4.7)| / |d.u2 k / 4.7| + 4.7)) ∧
    (0 < 4.7 * (d.u2 k / 4.7) → 4.7 * (d.u2 k / 4.7) ≤ d.u1 k * 3 →
      (sample d k).2.2 = F.fin (d.u1 k * 3 / (d.u2 k / 4.7))) ∧
    (d.u2 k / 4.7 = 0 → (sample d k).2.2 = F.pinf) ∧
    (1 ≤ n → (∀ j, j < n → 0 ≤ d.u2 (k0 + j)) →
      (measure_u_i_r d k0 v n).i.1 = F.fin 0 →
      (measure_u_i_r d k0 v n).r.1 = F.pinf) := by
  have hU2 : (4.7 : ℝ) * (d.u2 k / 4.7) = d.u2 k := by field_simp
  refine ⟨?_, ?_, ?_, ?_⟩
  · intro hi
    rw [sample_snd_snd, if_pos hi, abs_div, hU2]
  · intro hpos hle
    rw [hU2] at hle
    have hi0 : 0 < d.u2 k / 4.7 := by nlinarith
    have hu2 : d.u2 k ≠ 0 := by
      intro h0
      rw [h0] at hi0
      norm_num at hi0
    rw [sample_snd_snd, if_pos (ne_of_gt hi0),
      abs_of_nonneg (div_nonneg (by linarith) hi0.le)]
    congr 1
    field_simp
    ring
  · intro hi
    rw [sample_snd_snd, if_neg (by simp [hi])]
  · intro hn hnn hmean
    have hiList : (recMeas d k0 n).map (fun s => s.2.1) =
        ((List.range n).map fun j => d.u2 (k0 + j) / 4.7).map F.fin := by
      rw [recMeas_eq_map, List.map_map, List.map_map]
      exact List.map_congr_left fun j _ => rfl
    have hne0 : ((List.range n).map fun j => d.u2 (k0 + j) / 4.7) ≠ [] := by
      intro h
      have := congrArg List.length h
      simp at this
      omega
    have hm : (measure_u_i_r d k0 v n).i.1 =
        F.fin (listMean ((List.range n).map fun j => d.u2 (k0 + j) / 4.7)) := by
      show (value_with_uncertainty ((recMeas d k0 n).map fun s => s.2.1)).1 = _
      rw [value_with_uncertainty_fst, hiList, Fmean_map_fin _ hne0]
    rw [hm] at hmean
    have hn0 : ((n : ℕ) : ℝ) ≠ 0 := by
      simp only [ne_eq, Nat.cast_eq_zero]
      omega
    have hsum0 : ((List.range n).map fun j => d.u2 (k0 + j) / 4.7).sum = 0 := by
      have hlm := (F.fin.injEq _ _).mp hmean
      rw [listMean] at hlm
      have hlen : ((((List.range n).map fun j => d.u2 (k0 + j) / 4.7).length : ℕ) : ℝ)
          = (n : ℝ) := by simp
      rw [hlen] at hlm
      rcases div_eq_zero_iff.mp hlm with h | h
      · exact h
      · exact absurd h hn0
    have hall : ∀ j, j < n → d.u2 (k0 + j) = 0 := by
      intro j hj
      have hmem : d.u2 (k0 + j) / 4.7 ∈ (List.range n).map fun j => d.u2 (k0 + j) / 4.7 :=
        List.mem_map.mpr ⟨j, List.mem_range.mpr hj, rfl⟩
      have hnnL : ∀ x ∈ (List.range n).map fun j => d.u2 (k0 + j) / 4.7, 0 ≤ x := by
        intro x hx
        rcases List.mem_map.mp hx with ⟨j', hj', rfl⟩
        exact div_nonneg (hnn j' (List.mem_range.mp hj')) (by norm_num)
      have h0 := sum_eq_zero_all_zero _ hnnL hsum0 _ hmem
      rcases div_eq_zero_iff.mp h0 with h | h
      · exact h
      · norm_num at h
    have hrList : ∀ x ∈ (recMeas d k0 n).map (fun s => s.2.2), x = F.pinf := by
      intro x hx
      rw [recMeas_eq_map, List.map_map] at hx
      rcases List.mem_map.mp hx with ⟨j, hj, rfl⟩
      show (sample d (k0 + j)).2.2 = F.pinf
      rw [sample_snd_snd, if_neg (by simp [hall j (List.mem_range.mp hj)])]
    show (value_with_uncertainty ((recMeas d k0 n).map fun s => s.2.2)).1 = F.pinf
    rw [value_with_uncertainty_fst]
    refine Fmean_pinf _ ?_ hrList
    intro h
    have := congrArg List.length h
    simp [recMeas_length] at this
    omega

theorem sample_resistance_correct_witness :
    (devOnes.u2 0 / 4.7 ≠ 0 ∧ (1 : ℕ) ≤ 1) ∧
      (sample devOnes 0).2.2 =
        F.fin (|devOnes.u1 0 * 3 - 4.7 * (devOnes.u2 0 / 4.7)| / |devOnes.u2 0 / 4.7| + 4.7) :=
  ⟨⟨by norm_num [devOnes], le_rfl⟩,
    (sample_resistance_correct devOnes 0 0 1 1).1 (by norm_num [devOnes])⟩

/-- **C7 (counterexample).** On a reading where the shunt voltage
(`U2 = 3/5`) exceeds the scaled cell voltage (`u = 3/10`), the current
is nonzero but the computed resistance `141/20` differs from
`u / i = 47/20`. -/
theorem sample_resistance_ne_u_div_i :
    (sample devSkew 0).2.1 = F.fin (3 / 5 / 4.7) ∧
    (3 / 5 / 4.7 : ℝ) ≠ 0 ∧
    (sample devSkew 0).2.2 = F.fin (141 / 20) ∧
    (1 / 10 : ℝ) * 3 / (3 / 5 / 4.7) = 47 / 20 ∧
    (141 / 20 : ℝ) ≠ 47 / 20 := by
  refine ⟨rfl, by norm_num, ?_, by norm_num, by norm_num⟩
  rw [sample_snd_snd]
  have h1 : devSkew.u2 0 = 3 / 5 := rfl
  have h2 : devSkew.u1 0 = 1 / 10 := rfl
  rw [h1, h2, if_pos (by norm_num), abs_of_nonpos (by norm_num)]
  congr 1
  norm_num

/-! ## C8: standard error of the mean -/

/-- **C8 (amended).** When every raw sample of a quantity is finite
(for the resistance: every raw current is nonzero), the aggregated
uncertainty of that quantity equals
`population_stddev(samples) / sqrt(n)`; in particular, for
`repeat = 1` the sem is 0 for `u`, `i` and `r`. -/
theorem sem_correct_for_finite_samples (d : Device) (k0 : ℕ) (v : ℝ) (n : ℕ)
    (hn : 1 ≤ n) (hz : ∀ j, j < n → d.u2 (k0 + j) ≠ 0) :
    ((measure_u_i_r d k0 v n).u.2 =
        F.fin (popStd (((recMeas d k0 n).map fun s => s.1).map F.toReal) / Real.sqrt n)) ∧
    ((measure_u_i_r d k0 v n).i.2 =
        F.fin (popStd (((recMeas d k0 n).map fun s => s.2.1).map F.toReal) / Real.sqrt n)) ∧
    ((measure_u_i_r d k0 v n).r.2 =
        F.fin (popStd (((recMeas d k0 n).map fun s => s.2.2).map F.toReal) / Real.sqrt n)) ∧
    (n = 1 →
      (measure_u_i_r d k0 v n).u.2 = F.fin 0 ∧
      (measure_u_i_r d k0 v n).i.2 = F.fin 0 ∧
      (measure_u_i_r d k0 v n).r.2 = F.fin 0) := by
  have hu_fin : ∀ x ∈ (recMeas d k0 n).map (fun s => s.1), ∃ y, x = F.fin y := by
    intro x hx
    rw [recMeas_eq_map, List.map_map] at hx
    rcases List.mem_map.mp hx with ⟨j, _, rfl⟩
    exact ⟨_, sample_fst d (k0 + j)⟩
  have hi_fin : ∀ x ∈ (recMeas d k0 n).map (fun s => s.2.1), ∃ y, x = F.fin y := by
    intro x hx
    rw [recMeas_eq_map, List.map_map] at hx
    rcases List.mem_map.mp hx with ⟨j, _, rfl⟩
    exact ⟨_, sample_snd_fst d (k0 + j)⟩
  have hr_fin : ∀ x ∈ (recMeas d k0 n).map (fun s => s.2.2), ∃ y, x = F.fin y := by
    intro x hx
    rw [recMeas_eq_map, List.map_map] at hx
    rcases List.mem_map.mp hx with ⟨j, hj, rfl⟩
    have hdiv : d.u2 (k0 + j) / 4.7 ≠ 0 := by
      intro h0
      rcases div_eq_zero_iff.mp h0 with h | h
      · exact hz j (List.mem_range.mp hj) h
      · norm_num at h
    refine ⟨|(d.u1 (k0 + j) * 3 - d.u2 (k0 + j)) / (d.u2 (k0 + j) / 4.7)| + 4.7, ?_⟩
    show (sample d (k0 + j)).2.2 = _
    rw [sample_snd_snd, if_pos hdiv]
  have hlen : ∀ f : F × F × F → F, ((recMeas d k0 n).map f).length = n := by
    intro f
    rw [List.length_map, recMeas_length]
  have hU : (measure_u_i_r d k0 v n).u.2 =
      F.fin (popStd (((recMeas d k0 n).map fun s => s.1).map F.toReal) / Real.sqrt n) := by
    show (value_with_uncertainty ((recMeas d k0 n).map fun s => s.1)).2 = _
    rw [measure_component_unc_of_fin _ hu_fin, hlen]
  have hI : (measure_u_i_r d k0 v n).i.2 =
      F.fin (popStd (((recMeas d k0 n).map fun s => s.2.1).map F.toReal) / Real.sqrt n) := by
    show (value_with_uncertainty ((recMeas d k0 n).map fun s => s.2.1)).2 = _
    rw [measure_component_unc_of_fin _ hi_fin, hlen]
  have hR : (measure_u_i_r d k0 v n).r.2 =
      F.fin (popStd (((recMeas d k0 n).map fun s => s.2.2).map F.toReal) / Real.sqrt n) := by
    show (value_with_uncertainty ((recMeas d k0 n).map fun s => s.2.2)).2 = _
    rw [measure_component_unc_of_fin _ hr_fin, hlen]
  refine ⟨hU, hI, hR, ?_⟩
  intro h1
  subst h1
  have e : ∀ f : F × F × F → F,
      ((recMeas d k0 1).map f).map F.toReal = [F.toReal (f (sample d k0))] := fun _ => rfl
  refine ⟨?_, ?_, ?_⟩
  · rw [hU, e, popStd_singleton]
    simp
  · rw [hI, e, popStd_singleton]
    simp
  · rw [hR, e, popStd_singleton]
    simp

theorem sem_correct_witness :
    (measure_u_i_r devOnes 0 1 1).u.2 = F.fin 0 ∧
      (measure_u_i_r devOnes 0 1 1).i.2 = F.fin 0 ∧
      (measure_u_i_r devOnes 0 1 1).r.2 = F.fin 0 :=
  (sem_correct_for_finite_samples devOnes 0 1 1 le_rfl
    (fun _ _ => by simp [devOnes])).2.2.2 rfl

/-- **C8 (counterexample).** For `repeat = 1` with a zero-current
reading, the single resistance sample is `inf`, so the aggregated
resistance uncertainty is `inf`, not the claimed `sem = 0`. -/
theorem sem_not_zero_for_single_zero_current :
    (measure_u_i_r devZeroCurrent 0 1 1).r.2 = F.pinf ∧ F.pinf ≠ F.fin 0 := by
  constructor
  · show (value_with_uncertainty ((recMeas devZeroCurrent 0 1).map fun s => s.2.2)).2 = F.pinf
    have h : (recMeas devZeroCurrent 0 1).map (fun s => s.2.2) = [F.pinf] := by
      show [(sample devZeroCurrent 0).2.2] = [F.pinf]
      rw [sample_snd_snd, if_neg (by simp [devZeroCurrent])]
    rw [h]
    rfl
  · simp

/-! ## C10: infinite uncertainty on non-finite samples -/

/-- **C10.** If any raw sample of a quantity is infinite or NaN, the
aggregated result for that quantity is `(mean of the samples, inf)`;
consequently a single zero-current sample (whose resistance sample is
`inf`) forces the aggregated resistance uncertainty to `inf` regardless
of `repeat`. -/
theorem uncertainty_inf_on_nonfinite_samples :
    (∀ values : List F, values.any (fun x => x.isInf || x.isNaN) = true →
      value_with_uncertainty values = (Fmean values, F.pinf)) ∧
    (∀ (d : Device) (k0 : ℕ) (v : ℝ) (n j : ℕ), j < n → d.u2 (k0 + j) = 0 →
      (measure_u_i_r d k0 v n).r.2 = F.pinf) := by
  constructor
  · intro values h
    simp [value_with_uncertainty, h]
  · intro d k0 v n j hj h0
    show (value_with_uncertainty ((recMeas d k0 n).map fun s => s.2.2)).2 = F.pinf
    have hmem : F.pinf ∈ (recMeas d k0 n).map fun s => s.2.2 := by
      rw [recMeas_eq_map, List.map_map]
      refine List.mem_map.mpr ⟨j, List.mem_range.mpr hj, ?_⟩
      show (sample d (k0 + j)).2.2 = F.pinf
      rw [sample_snd_snd, if_neg (by simp [h0])]
    have hany : ((recMeas d k0 n).map fun s => s.2.2).any
        (fun x => x.isInf || x.isNaN) = true :=
      List.any_eq_true.mpr ⟨F.pinf, hmem, rfl⟩
    simp [value_with_uncertainty, hany]

theorem uncertainty_inf_witness :
    value_with_uncertainty [F.fin 1, F.pinf] = (Fmean [F.fin 1, F.pinf], F.pinf) ∧
      (measure_u_i_r devZeroCurrent 0 1 2).r.2 = F.pinf :=
  ⟨uncertainty_inf_on_nonfinite_samples.1 [F.fin 1, F.pinf] rfl,
    uncertainty_inf_on_nonfinite_samples.2 devZeroCurrent 0 1 2 1 (by norm_num) rfl⟩

/-! ## C5: window pruning -/

theorem popLoop_eq_dropWhile (t : ℝ) (rows : List PRT)
    (hf : ∃ e ∈ rows, t - e.ts ≤ 8) :
    popLoop t rows = some (rows.dropWhile (fun e => decide (t - e.ts > 8))) := by
  induction rows with
  | nil =>
    rcases hf with ⟨e, he, _⟩
    cases he
  | cons a rest ih =>
    simp only [popLoop, List.dropWhile_cons]
    by_cases ha : t - a.ts > 8
    · rw [if_pos ha, if_pos (by simpa using ha)]
      apply ih
      rcases hf with ⟨e, he, hee⟩
      rcases List.mem_cons.mp he with rfl | he
      · linarith
      · exact ⟨e, he, hee⟩
    · rw [if_neg ha, if_neg (by simpa using ha)]

theorem dropWhile_stale_eq_filter (t : ℝ) (rows : List PRT)
    (hs : rows.Pairwise (fun a b => a.ts ≤ b.ts)) :
    rows.dropWhile (fun e => decide (t - e.ts > 8)) =
      rows.filter (fun e => decide (t - e.ts ≤ 8)) := by
  induction rows with
  | nil => rfl
  | cons a rest ih =>
    rcases List.pairwise_cons.mp hs with ⟨hhead, htail⟩
    rw [List.dropWhile_cons, List.filter_cons]
    by_cases ha : t - a.ts > 8
    · rw [if_pos (by simpa using ha), if_neg (by simp; linarith)]
      exact ih htail
    · have hle : t - a.ts ≤ 8 := not_lt.mp ha
      rw [if_neg (by simpa using ha), if_pos (by simpa using hle)]
      refine congrArg _ ?_
      refine (List.filter_eq_self.mpr fun e he => ?_).symm
      have := hhead e he
      simp only [decide_eq_true_eq]
      linarith

/-- **C5 (amended).** Pruning removes entries only from the oldest end
(the result is a suffix of the window); for a timestamp-ordered window
of at least 2 entries at least one of which has age ≤ 8 s, pruning
leaves exactly the entries of age ≤ 8 s.  (A window of at most one
entry is returned untouched even if stale — see the counterexample.) -/
theorem pop_old_prunes_correct (t : ℝ) (rows : List PRT)
    (hs : rows.Pairwise (fun a b => a.ts ≤ b.ts)) (h2 : 2 ≤ rows.length)
    (hf : ∃ e ∈ rows, t - e.ts ≤ 8) :
    pop_old_p_r_t_measurements t rows =
        some (rows.filter (fun e => decide (t - e.ts ≤ 8))) ∧
      rows.filter (fun e => decide (t - e.ts ≤ 8)) <:+ rows := by
  constructor
  · rw [pop_old_p_r_t_measurements, if_neg (by omega), popLoop_eq_dropWhile t rows hf,
      dropWhile_stale_eq_filter t rows hs]
  · rw [← dropWhile_stale_eq_filter t rows hs]
    exact List.dropWhile_suffix _

/-- The spec's retention scenario: entries stamped `t = 0, 1, …, 10`. -/
def rows11 : List PRT :=
  [⟨0, 0, 0, 0, 0⟩, ⟨0, 0, 0, 0, 1⟩, ⟨0, 0, 0, 0, 2⟩, ⟨0, 0, 0, 0, 3⟩,
   ⟨0, 0, 0, 0, 4⟩, ⟨0, 0, 0, 0, 5⟩, ⟨0, 0, 0, 0, 6⟩, ⟨0, 0, 0, 0, 7⟩,
   ⟨0, 0, 0, 0, 8⟩, ⟨0, 0, 0, 0, 9⟩, ⟨0, 0, 0, 0, 10⟩]

theorem pop_old_prunes_witness :
    pop_old_p_r_t_measurements 10 rows11 =
        some (rows11.filter (fun e => decide ((10 : ℝ) - e.ts ≤ 8))) ∧
      rows11.filter (fun e => decide ((10 : ℝ) - e.ts ≤ 8)) <:+ rows11 :=
  pop_old_prunes_correct 10 rows11
    (by norm_num [rows11, List.pairwise_cons])
    (by norm_num [rows11])
    ⟨⟨0, 0, 0, 0, 10⟩, by simp [rows11], by norm_num⟩

/-- **C5 (counterexample).** A window holding a single entry of age 10 s
is returned untouched by the pruning call, so an entry older than the
8-second horizon remains after pruning. -/
theorem pop_old_keeps_stale_singleton :
    pop_old_p_r_t_measurements 10 [⟨0, 0, 0, 0, 0⟩] = some [⟨0, 0, 0, 0, 0⟩] ∧
      (10 : ℝ) - (PRT.mk 0 0 0 0 0).ts > 8 := by
  constructor
  · rw [pop_old_p_r_t_measurements, if_pos (by norm_num)]
  · norm_num

/-! ## C6: the active-tracking trigger -/

theorem mul_100_mod_200_ne_zero_iff (r : ℤ) : r * 100 % 200 ≠ 0 ↔ Odd r := by
  rw [Int.odd_iff]
  omega

/-- **C6 (amended).** The active-tracking strategy signals a rescan
exactly when it is enabled, `round(10·now)` is odd (the code's `t % 200`
truthiness gate on `t = round(time()·10)·100`), more than 2 seconds have
passed since the last full scan, and the most recent 1-second mean power
differs from the preceding 1-second mean by more than 10 % of the
latter.  In particular it never signals within 2 seconds of the prior
full scan — but, contrary to the claim, the three stated conditions
alone do not suffice: on even ticks no rescan is signalled. -/
theorem active_trigger_correct (active : Bool) (now last_scan : ℝ) (rows : List PRT) :
    (signals_rescan active now last_scan rows ↔
      (active = true ∧ Odd (pyRound (now * 10)) ∧ 2 < now - last_scan ∧
        |mean_power_in_time_range rows (now - 1) now -
            mean_power_in_time_range rows (now - 2) (now - 1)| >
          0.1 * mean_power_in_time_range rows (now - 2) (now - 1))) ∧
    (now - last_scan ≤ 2 → ¬ signals_rescan active now last_scan rows) := by
  constructor
  · rw [signals_rescan, mul_100_mod_200_ne_zero_iff]
  · intro hle hsig
    have := hsig.2.2.1
    linarith

theorem active_trigger_correct_witness :
    ¬ signals_rescan true 1 0 [] :=
  (active_trigger_correct true 1 0 []).2 (by norm_num)

/-- The window used by the counterexample: mean power 2 in the older
1-second window, 3 in the newer. -/
def rowsEvenTick : List PRT := [⟨2, 0, 0, 0, 8.5⟩, ⟨3, 0, 0, 0, 9.5⟩]

/-- **C6 (counterexample).** At wall-clock time 10 with the last scan at
time 0, active tracking is enabled, more than 2 s have passed and the
1-second mean powers (3 vs 2) differ by 50 % — yet `signals_rescan` is
false, because `round(10·10) = 100` is even so the gate `t % 200` is
falsy. -/
theorem active_trigger_blocked_on_even_tick :
    ((2 : ℝ) < 10 - 0 ∧
      |mean_power_in_time_range rowsEvenTick (10 - 1) 10 -
          mean_power_in_time_range rowsEvenTick (10 - 2) (10 - 1)| >
        0.1 * mean_power_in_time_range rowsEvenTick (10 - 2) (10 - 1)) ∧
    ¬ signals_rescan true 10 0 rowsEvenTick := by
  have hcur : mean_power_in_time_range rowsEvenTick (10 - 1) 10 = 3 := by
    norm_num [mean_power_in_time_range, rowsEvenTick, List.filter_cons, List.filter_nil,
      listMean]
  have hrec : mean_power_in_time_range rowsEvenTick (10 - 2) (10 - 1) = 2 := by
    norm_num [mean_power_in_time_range, rowsEvenTick, List.filter_cons, List.filter_nil,
      listMean]
  refine ⟨⟨by norm_num, ?_⟩, ?_⟩
  · rw [hcur, hrec]
    norm_num
  · intro h
    have hmod := h.2.1
    have h100 : pyRound ((10 : ℝ) * 10) = 100 := by
      rw [show ((10 : ℝ) * 10) = ((100 : ℤ) : ℝ) by norm_num, pyRound_intCast]
    rw [h100] at hmod
    exact hmod (by decide)

/-! ## C1: the sweep -/

theorem arangeLen_pos_eq (start_voltage end_voltage step_size : ℝ)
    (hse : start_voltage ≤ end_voltage) (hstep : 0 < step_size) :
    arangeLen start_voltage (end_voltage + step_size) step_size =
      ⌈(end_voltage - start_voltage) / step_size⌉.toNat + 1 := by
  rw [arangeLen,
    show end_voltage + step_size - start_voltage = (end_voltage - start_voltage) + step_size
      by ring,
    add_div, div_self (ne_of_gt hstep), Int.ceil_add_one]
  have h2 : 0 ≤ ⌈(end_voltage - start_voltage) / step_size⌉ :=
    Int.ceil_nonneg (div_nonneg (by linarith) hstep.le)
  omega

theorem measureReads_no_setOutput (n : ℕ) :
    ∀ op ∈ measureReads n, ∀ ch z, op ≠ DevOp.setOutput ch z := by
  induction n with
  | zero =>
    intro op hop
    cases hop
  | succ n ih =>
    intro op hop ch z
    rcases List.mem_cons.mp hop with rfl | hop
    · simp
    rcases List.mem_cons.mp hop with rfl | hop
    · simp
    · exact ih op hop ch z

/-- **C1.** For `start ≤ end`, `step > 0` and `repeat ≥ 1`, the sweep
succeeds and yields exactly one aggregated measurement per setpoint of
`np.arange(start, end + step, step)` — the `k`-th is taken at setpoint
`start + k·step` and reports it as its `v_out`.  The setpoints are
strictly increasing, all but the last lie below `end`, and the last is
the first sequence value `≥ end`; the operation trace ends with exactly
one output reset to 0, after all measurement operations (none of which
is an output reset to 0). -/
theorem scan_u_i_r_correct (d : Device) (start_voltage end_voltage step_size : ℝ) (rep : ℕ)
    (hse : start_voltage ≤ end_voltage) (hstep : 0 < step_size) (hrep : 1 ≤ rep) :
    1 ≤ arangeLen start_voltage (end_voltage + step_size) step_size ∧
    scan_u_i_r d start_voltage end_voltage step_size rep =
      .ok (((List.range (arangeLen start_voltage (end_voltage + step_size) step_size)).map
              (fun k => measure_u_i_r d (k * rep) (start_voltage + k * step_size) rep)),
           ((List.range (arangeLen start_voltage (end_voltage + step_size) step_size)).map
              (fun k => measureOps (start_voltage + k * step_size) rep)).flatten ++
             [DevOp.setOutput CH_VOUT 0]) ∧
    (∀ k : ℕ, (measure_u_i_r d (k * rep) (start_voltage + k * step_size) rep).vout =
        start_voltage + k * step_size) ∧
    (∀ j k : ℕ, j < k →
      start_voltage + j * step_size < start_voltage + k * step_size) ∧
    (∀ k : ℕ, k + 1 < arangeLen start_voltage (end_voltage + step_size) step_size →
      start_voltage + k * step_size < end_voltage) ∧
    end_voltage ≤ start_voltage +
      ((arangeLen start_voltage (end_voltage + step_size) step_size - 1 : ℕ) : ℝ) * step_size ∧
    (∀ op ∈ ((List.range (arangeLen start_voltage (end_voltage + step_size) step_size)).map
        (fun k => measureOps (start_voltage + k * step_size) rep)).flatten,
      op ≠ DevOp.setOutput CH_VOUT 0) := by
  have hx0 : 0 ≤ (end_voltage - start_voltage) / step_size :=
    div_nonneg (by linarith) hstep.le
  have hxmul : (end_voltage - start_voltage) / step_size * step_size =
      end_voltage - start_voltage := div_mul_cancel₀ _ (ne_of_gt hstep)
  have hceil0 : 0 ≤ ⌈(end_voltage - start_voltage) / step_size⌉ := Int.ceil_nonneg hx0
  refine ⟨?_, ?_, fun k => rfl, ?_, ?_, ?_, ?_⟩
  · rw [arangeLen_pos_eq _ _ _ hse hstep]
    omega
  · rw [scan_u_i_r, if_neg (not_lt.mpr hse)]
  · intro j k hjk
    have hr : (j : ℝ) < (k : ℝ) := by exact_mod_cast hjk
    nlinarith
  · intro k hk
    rw [arangeLen_pos_eq _ _ _ hse hstep] at hk
    have hk2 : (k : ℤ) < ⌈(end_voltage - start_voltage) / step_size⌉ := by omega
    have h1 : ((k : ℝ)) + 1 ≤ ((⌈(end_voltage - start_voltage) / step_size⌉ : ℤ) : ℝ) := by
      exact_mod_cast hk2
    have h2 : ((⌈(end_voltage - start_voltage) / step_size⌉ : ℤ) : ℝ) <
        (end_voltage - start_voltage) / step_size + 1 := Int.ceil_lt_add_one _
    have hkr : (k : ℝ) < (end_voltage - start_voltage) / step_size := by linarith
    nlinarith
  · rw [arangeLen_pos_eq _ _ _ hse hstep]
    have h3 : (⌈(end_voltage - start_voltage) / step_size⌉.toNat + 1 - 1 : ℕ) =
        ⌈(end_voltage - start_voltage) / step_size⌉.toNat := by omega
    rw [h3]
    have hcast : ((⌈(end_voltage - start_voltage) / step_size⌉.toNat : ℕ) : ℝ) =
        ((⌈(end_voltage - start_voltage) / step_size⌉ : ℤ) : ℝ) := by
      exact_mod_cast congrArg (fun z : ℤ => (z : ℝ)) (Int.toNat_of_nonneg hceil0)
    rw [hcast]
    have hle2 : (end_voltage - start_voltage) / step_size ≤
        ((⌈(end_voltage - start_voltage) / step_size⌉ : ℤ) : ℝ) := Int.le_ceil _
    nlinarith
  · intro op hop
    rw [List.mem_flatten] at hop
    rcases hop with ⟨l, hl, hop⟩
    rcases List.mem_map.mp hl with ⟨k, _, rfl⟩
    rw [measureOps, List.mem_append] at hop
    rcases hop with hop | hop
    · by_cases hv : 0 < start_voltage + k * step_size
      · rw [if_pos hv] at hop
        rcases List.mem_singleton.mp hop with rfl
        intro heq
        injection heq with h1 h2
        rw [h2] at hv
        exact lt_irrefl 0 hv
      · rw [if_neg hv] at hop
        cases hop
    · exact measureReads_no_setOutput rep op hop CH_VOUT 0

theorem scan_u_i_r_correct_witness :
    (0 : ℝ) ≤ 1 ∧ (0 : ℝ) < 1 / 2 ∧
      scan_u_i_r devOnes 0 1 (1 / 2) 1 =
        .ok (((List.range (arangeLen 0 (1 + 1 / 2) (1 / 2))).map
                (fun k => measure_u_i_r devOnes (k * 1) (0 + k * (1 / 2)) 1)),
             ((List.range (arangeLen 0 (1 + 1 / 2) (1 / 2))).map
                (fun k => measureOps (0 + k * (1 / 2)) 1)).flatten ++
               [DevOp.setOutput CH_VOUT 0]) :=
  ⟨by norm_num, by norm_num,
    (scan_u_i_r_correct devOnes 0 1 (1 / 2) 1 (by norm_num) (by norm_num) le_rfl).2.1⟩

/-! ## C2: the sweet-spot detector -/

theorem pyRound_le_round (x : ℝ) : pyRound x ≤ round x := by
  rw [pyRound]
  split
  · rename_i h
    rw [Int.fract] at h
    have hx : x + 1 / 2 = ((⌊x⌋ : ℤ) : ℝ) + 1 := by linarith
    rw [round_eq, hx,
      show ((⌊x⌋ : ℤ) : ℝ) + 1 = (((⌊x⌋ + 1 : ℤ)) : ℝ) by push_cast; ring,
      Int.floor_intCast]
    split <;> omega
  · exact le_refl _

theorem one_le_pyRound (x : ℝ) (hx : 0.6 ≤ x) : 1 ≤ pyRound x := by
  rw [pyRound]
  split
  · rename_i h
    rw [Int.fract] at h
    have h1 : (1 : ℤ) ≤ ⌊x⌋ := by
      by_contra hc
      push_neg at hc
      have h3 : ⌊x⌋ ≤ 0 := by omega
      have h2 : (⌊x⌋ : ℝ) ≤ 0 := by exact_mod_cast h3
      norm_num at hx
      linarith
    split <;> omega
  · rw [round_eq]
    refine Int.le_floor.mpr ?_
    push_cast
    norm_num at hx ⊢
    linarith

theorem one_le_window_len (n : ℕ) (hn : 6 ≤ n) : 1 ≤ window_len n := by
  rw [window_len]
  have h6 : (0.6 : ℝ) ≤ (n : ℝ) * 0.1 := by
    have hc : (6 : ℝ) ≤ (n : ℝ) := by exact_mod_cast hn
    norm_num
    linarith
  have := one_le_pyRound _ h6
  omega

theorem window_len_lt (n : ℕ) (hn : 6 ≤ n) : window_len n < n := by
  rw [window_len]
  have h1 := pyRound_le_round ((n : ℝ) * 0.1)
  have h2 : round ((n : ℝ) * 0.1) < (n : ℤ) := by
    rw [round_eq]
    refine Int.floor_lt.mpr ?_
    have hc : (6 : ℝ) ≤ (n : ℝ) := by exact_mod_cast hn
    push_cast
    norm_num
    linarith
  omega

theorem mem_pyRange_iff (w n i : ℕ) (hw : 0 < w) :
    i ∈ pyRange w n w ↔ (w ≤ i ∧ i < n ∧ w ∣ i) := by
  rw [pyRange, if_neg (by omega), List.mem_range']
  constructor
  · rintro ⟨j, hj, rfl⟩
    refine ⟨by omega, ?_, ⟨1 + j, by ring⟩⟩
    rcases Nat.lt_or_ge n w with hnw | hnw
    · exfalso
      have hcnt : (n - w + w - 1) / w = 0 := Nat.div_eq_of_lt (by omega)
      omega
    · have hcnt : n - w + w - 1 = n - 1 := by omega
      rw [hcnt] at hj
      have h2 : (j + 1) * w ≤ n - 1 :=
        (Nat.le_div_iff_mul_le hw).mp (Nat.succ_le_of_lt hj)
      have h3 : w + w * j = (j + 1) * w := by ring
      omega
  · rintro ⟨hwi, hin, m, rfl⟩
    have hm1 : 1 ≤ m := by
      rcases Nat.eq_zero_or_pos m with rfl | h
      · omega
      · exact h
    obtain ⟨m', rfl⟩ : ∃ m', m = m' + 1 := ⟨m - 1, by omega⟩
    refine ⟨m', ?_, by ring⟩
    have hnw : w ≤ n := by omega
    have hcnt : n - w + w - 1 = n - 1 := by omega
    rw [hcnt]
    have h1 : (m' + 1) * w ≤ n - 1 := by
      have h2 : (m' + 1) * w = w * (m' + 1) := Nat.mul_comm _ _
      omega
    exact Nat.lt_of_succ_le ((Nat.le_div_iff_mul_le hw).mpr h1)

theorem range'_pairwise_lt (a n w : ℕ) (hw : 0 < w) :
    (List.range' a n w).Pairwise (· < ·) := by
  induction n generalizing a with
  | zero => exact List.Pairwise.nil
  | succ n ih =>
    show (a :: List.range' (a + w) n w).Pairwise (· < ·)
    refine List.pairwise_cons.mpr ⟨?_, ih (a + w)⟩
    intro b hb
    rcases List.mem_range'.mp hb with ⟨j, _, rfl⟩
    omega

theorem pyRange_pairwise (s n w : ℕ) : (pyRange s n w).Pairwise (· < ·) := by
  rw [pyRange]
  split
  · exact List.Pairwise.nil
  · exact range'_pairwise_lt _ _ _ (by omega)

theorem find?_eq_some_of_first {p : ℕ → Bool} {l : List ℕ} (hl : l.Pairwise (· < ·))
    {k : ℕ} (hk : k ∈ l) (hpk : p k = true)
    (hmin : ∀ j ∈ l, j < k → p j = false) :
    l.find? p = some k := by
  induction l with
  | nil => cases hk
  | cons a tl ih =>
    rcases List.pairwise_cons.mp hl with ⟨hhead, htail⟩
    rcases List.mem_cons.mp hk with rfl | hk
    · exact List.find?_cons_of_pos _ hpk
    · have ha : a < k := hhead k hk
      have hpa : p a = false := hmin a (.head _) ha
      rw [List.find?_cons_of_neg _ (by simp [hpa])]
      exact ih htail hk fun j hj hjk => hmin j (.tail _ hj) hjk

/-- The block-boundary indices walked by the detector:
`range(window_len, len(v_out), window_len)`. -/
def boundaryIdx (v_out u : List ℝ) : List ℕ :=
  pyRange (window_len u.length) v_out.length (window_len u.length)

/-- **C2 (amended).** For equal-length series of length `≥ 6` (so that
the block width `w = round(0.1·len(u))`, banker's rounding, is at least
1), the detector examines exactly the boundary indices
`k ∈ {w, 2w, 3w, …}` below `len`; if no boundary exceeds the
`u_rms` threshold it fails with the no-sweet-spot error, and at the
least boundary `k` with `|u[0] − u[k]| > u_rms` it returns
`(v_out[k] − 0.5, v_out[k])`.  For `len ≤ 5` the block width is 0 and
the `range` call raises a different `ValueError` instead (see the
counterexample). -/
theorem v_out_of_mosfet_sweetspot_correct (v_out u : List ℝ)
    (hlen : u.length = v_out.length) (hn : 6 ≤ u.length) :
    1 ≤ window_len u.length ∧
    (∀ i : ℕ, i ∈ boundaryIdx v_out u ↔
      (window_len u.length ≤ i ∧ i < v_out.length ∧ window_len u.length ∣ i)) ∧
    ((∀ i ∈ boundaryIdx v_out u, ¬ |u.getD 0 0 - u.getD i 0| > u_rms u) →
      v_out_of_mosfet_sweetspot v_out u = .error .noSweetSpot) ∧
    (∀ k ∈ boundaryIdx v_out u, |u.getD 0 0 - u.getD k 0| > u_rms u →
      (∀ j ∈ boundaryIdx v_out u, j < k → ¬ |u.getD 0 0 - u.getD j 0| > u_rms u) →
      v_out_of_mosfet_sweetspot v_out u = .ok (v_out.getD k 0 - 0.5, v_out.getD k 0)) := by
  have hw : 1 ≤ window_len u.length := one_le_window_len _ hn
  refine ⟨hw, fun i => mem_pyRange_iff _ _ i (by omega), ?_, ?_⟩
  · intro hnone
    have hfind : (pyRange (window_len u.length) v_out.length (window_len u.length)).find?
        (fun i => decide (|u.getD 0 0 - u.getD i 0| > u_rms u)) = none := by
      refine List.find?_eq_none.mpr fun i hi => ?_
      simpa using hnone i hi
    simp only [v_out_of_mosfet_sweetspot]
    rw [if_neg (by omega), hfind]
  · intro k hk hpk hmin
    simp only [boundaryIdx] at hk hmin
    have hfind : (pyRange (window_len u.length) v_out.length (window_len u.length)).find?
        (fun i => decide (|u.getD 0 0 - u.getD i 0| > u_rms u)) = some k := by
      refine find?_eq_some_of_first (pyRange_pairwise _ _ _) hk (by simpa using hpk) ?_
      intro j hj hjk
      simpa using hmin j hj hjk
    simp only [v_out_of_mosfet_sweetspot]
    rw [if_neg (by omega), hfind]

/-- The all-flat length-10 series used by the witness. -/
def uTen : List ℝ := List.replicate 10 1

theorem v_out_of_mosfet_sweetspot_correct_witness :
    uTen.length = uTen.length ∧ 6 ≤ uTen.length ∧ 1 ≤ window_len uTen.length ∧
      ((∀ i ∈ boundaryIdx uTen uTen, ¬ |uTen.getD 0 0 - uTen.getD i 0| > u_rms uTen) →
        v_out_of_mosfet_sweetspot uTen uTen = .error .noSweetSpot) :=
  ⟨rfl, by norm_num [uTen],
    (v_out_of_mosfet_sweetspot_correct uTen uTen rfl (by norm_num [uTen])).1,
    (v_out_of_mosfet_sweetspot_correct uTen uTen rfl (by norm_num [uTen])).2.2.1⟩

/-- **C2 (counterexample).** On the one-point series the block width
`round(0.1)` is 0, so the `range` call raises its own `ValueError`
("arg 3 must not be zero") — not the no-sweet-spot error the claim
promises when no boundary exceeds the threshold. -/
theorem sweetspot_short_series_wrong_error :
    v_out_of_mosfet_sweetspot [(1 : ℝ)] [(1 : ℝ)] = .error .rangeStepZero ∧
      SweetErr.rangeStepZero ≠ SweetErr.noSweetSpot := by
  constructor
  · have hfr : Int.fract ((0.1 : ℝ)) = 0.1 :=
      Int.fract_eq_self.mpr ⟨by norm_num, by norm_num⟩
    have h0 : pyRound (0.1 : ℝ) = 0 := by
      rw [pyRound, hfr, if_neg (by norm_num), round_eq]
      exact Int.floor_eq_zero_iff.mpr (Set.mem_Ico.mpr ⟨by norm_num, by norm_num⟩)
    have hwl : window_len ([(1 : ℝ)].length) = 0 := by
      show window_len 1 = 0
      rw [window_len, show (((1 : ℕ) : ℝ) * 0.1) = (0.1 : ℝ) by norm_num, h0]
      rfl
    simp only [v_out_of_mosfet_sweetspot]
    rw [if_pos hwl]
  · simp

end

end SolarCell
